import Mathlib

/-!
Verification of the core data model and operations of a work-stealing
data-parallel library (an early `rayon`): the per-worker job deque
(`src/thread_pool.rs`), the global registry, the cost-driven `bridge`
driver (`src/par_iter/state.rs`), `collect_into`
(`src/par_iter/collect.rs`), and the iterator adapters (filter,
enumerate, zip_eq, slice chunks and windows).

Shallow embedding conventions: raw job pointers become `Nat` with the
null pointer as `none : Option Nat`; the mutable linkage heap becomes a
function `Nat → Link`; `f64` cost values become `ℚ` (the code only
halves costs and compares against a threshold, both exact operations);
Rust panics become `Option` results (`none` = panic).
-/

set_option maxHeartbeats 1000000

namespace Rayon

/-! ## Job linkage and the worker deque (`src/thread_pool.rs`) -/

/-- Linkage fields of a `Job` (`job.previous`, `job.next`); the null
pointer `NULL_JOB` is modelled as `none`. -/
structure Link where
  previous : Option Nat
  next : Option Nat
  deriving DecidableEq

/-- The linkage heap: every job pointer's `previous`/`next` fields. -/
def updLink (links : Nat → Link) (j : Nat) (v : Link) : Nat → Link :=
  fun n => if n = j then v else links n

/-- Structure `ThreadDeque` of `src/thread_pool.rs`, together with the linkage
heap of all jobs: `bottom` is the thief end, `top` the owner end. -/
structure ThreadDeque where
  bottom : Option Nat
  top : Option Nat
  links : Nat → Link

/-- Constructor `ThreadDeque::new`: both ends null. -/
def ThreadDeque.new : ThreadDeque :=
  { bottom := none, top := none, links := fun _ => { previous := none, next := none } }

/-- Operation `WorkerThread::push` from `src/thread_pool.rs`: sets
`job.previous = old top`, patches `old_top.next`, updates `top`, and
sets `bottom` when the deque was empty. -/
def ThreadDeque.push (d : ThreadDeque) (job : Nat) : ThreadDeque :=
  let top := d.top
  let links1 := updLink d.links job { previous := top, next := (d.links job).next }
  let links2 := match top with
    | none => links1
    | some t => updLink links1 t { previous := (links1 t).previous, next := some job }
  { top := some job,
    bottom := match d.bottom with
      | none => some job
      | some b => some b,
    links := links2 }

/-- Operation `WorkerThread::pop` from `src/thread_pool.rs`: pops `job` only if
it is still at the top; on success the previous job becomes the new
top (or the deque becomes empty); on failure nothing changes. -/
def ThreadDeque.pop (d : ThreadDeque) (job : Nat) : Bool × ThreadDeque :=
  if d.top = some job then
    let previous_job := (d.links job).previous
    match previous_job with
    | some p =>
        (true, { d with top := some p,
                        links := updLink d.links p
                          { previous := (d.links p).previous, next := none } })
    | none => (true, { d with top := none, bottom := none })
  else
    (false, d)

/-- Operation `steal_work_from` from `src/thread_pool.rs`: takes the job at the
bottom end, patching the new bottom's `previous` (or clearing `top`
when the deque becomes empty). -/
def ThreadDeque.steal (d : ThreadDeque) : Option Nat × ThreadDeque :=
  match d.bottom with
  | none => (none, d)
  | some job =>
      let next := (d.links job).next
      match next with
      | some n =>
          (some job, { d with bottom := some n,
                              links := updLink d.links n
                                { previous := none, next := (d.links n).next } })
      | none => (some job, { d with bottom := none, top := none })

/-- Holds when the (optional) job `o` has a null `previous` field. -/
def PrevNone (d : ThreadDeque) : Option Nat → Prop
  | none => True
  | some a => (d.links a).previous = none

instance (d : ThreadDeque) : (o : Option Nat) → Decidable (PrevNone d o)
  | none => .isTrue trivial
  | some a => inferInstanceAs (Decidable ((d.links a).previous = none))

/-- Holds when the (optional) job `o` has a null `next` field. -/
def NextNone (d : ThreadDeque) : Option Nat → Prop
  | none => True
  | some a => (d.links a).next = none

instance (d : ThreadDeque) : (o : Option Nat) → Decidable (NextNone d o)
  | none => .isTrue trivial
  | some a => inferInstanceAs (Decidable ((d.links a).next = none))

/-- Two adjacent jobs of the deque: `b` sits directly above `a`
(towards the top), so `a.next = b` and `b.previous = a`. -/
def LinkRel (links : Nat → Link) (a b : Nat) : Prop :=
  (links a).next = some b ∧ (links b).previous = some a

instance (links : Nat → Link) (a b : Nat) : Decidable (LinkRel links a b) :=
  inferInstanceAs (Decidable ((links a).next = some b ∧ (links b).previous = some a))

def decChainAux {α : Type} {R : α → α → Prop} (dec : ∀ a b, Decidable (R a b)) (a : α) :
    (l : List α) → Decidable (List.Chain R a l)
  | [] => .isTrue List.Chain.nil
  | b :: l =>
      haveI := decChainAux dec b l
      haveI := dec a b
      decidable_of_iff (R a b ∧ List.Chain R b l) List.chain_cons.symm

instance decideChain {α : Type} {R : α → α → Prop} [inst : DecidableRel R]
    (a : α) (l : List α) : Decidable (List.Chain R a l) :=
  decChainAux inst a l

instance (priority := 1001) decideChain' {α : Type} {R : α → α → Prop}
    [DecidableRel R] : (l : List α) → Decidable (List.Chain' R l)
  | [] => .isTrue trivial
  | a :: l => inferInstanceAs (Decidable (List.Chain R a l))

/-- The deque realizes the list `l` of job pointers, ordered from the
bottom (thief) end to the top (owner) end: the `next` chain climbs
from bottom to top, the `previous` chain descends, the ends carry null
outward pointers, and no pointer occurs twice. -/
def Represents (d : ThreadDeque) (l : List Nat) : Prop :=
  d.bottom = l.head? ∧
  d.top = l.getLast? ∧
  List.Chain' (LinkRel d.links) l ∧
  PrevNone d l.head? ∧
  NextNone d l.getLast? ∧
  l.Nodup

instance (d : ThreadDeque) (l : List Nat) : Decidable (Represents d l) :=
  inferInstanceAs (Decidable (d.bottom = l.head? ∧ d.top = l.getLast? ∧
    List.Chain' (LinkRel d.links) l ∧ PrevNone d l.head? ∧
    NextNone d l.getLast? ∧ l.Nodup))

/-- Repeated application of `steal_work_from` by idle peers: performs
`n` steal attempts, collecting the stolen jobs in order. -/
def stealsN : Nat → ThreadDeque → List Nat × ThreadDeque
  | 0, d => ([], d)
  | n + 1, d =>
      let r := d.steal
      let rest := stealsN n r.2
      (r.1.toList ++ rest.1, rest.2)

/-- The end-pointer invariant that the deque operations actually
maintain: empty means both ends null; otherwise the top job's `next`
and the bottom job's `previous` are null. -/
def EndsNull (d : ThreadDeque) : Prop :=
  (d.top = none ↔ d.bottom = none) ∧ NextNone d d.top ∧ PrevNone d d.bottom

instance (d : ThreadDeque) : Decidable (EndsNull d) :=
  inferInstanceAs (Decidable ((d.top = none ↔ d.bottom = none) ∧
    NextNone d d.top ∧ PrevNone d d.bottom))

/-- The invariant as the specification words it: empty means both ends
null; otherwise the top job's `previous` and the bottom job's `next`
are null. -/
def ClaimedDequeInv (d : ThreadDeque) : Prop :=
  (d.top = none ↔ d.bottom = none) ∧ PrevNone d d.top ∧ NextNone d d.bottom

instance (d : ThreadDeque) : Decidable (ClaimedDequeInv d) :=
  inferInstanceAs (Decidable ((d.top = none ↔ d.bottom = none) ∧
    PrevNone d d.top ∧ NextNone d d.bottom))

/-- Concrete two-job deque used to witness the deque theorems: job 1 at
the bottom, job 2 at the top. -/
def dEx : ThreadDeque :=
  { bottom := some 1,
    top := some 2,
    links := fun n =>
      if n = 1 then { previous := none, next := some 2 }
      else if n = 2 then { previous := some 1, next := none }
      else { previous := none, next := none } }

/-! ## Registry and worker startup (`src/thread_pool.rs`) -/

/-- Hard-coded worker count `NUM_CPUS` from `src/thread_pool.rs`. -/
def NUM_CPUS : Nat := 4

/-- Modelled from the spec: `latch.rs` is not under `src/`; a latch is a
one-shot monotone flag created unset. Only its creation state matters
here. -/
structure Latch where
  isSet : Bool

/-- Constructor `Latch::new`: created unset. -/
def Latch.new : Latch := { isSet := false }

/-- Per-worker record `ThreadInfo` from `src/thread_pool.rs`: a `primed`
latch and the worker's deque. -/
structure ThreadInfo where
  primed : Latch
  deque : ThreadDeque

/-- Constructor `ThreadInfo::new`: a fresh latch and an empty deque. -/
def ThreadInfo.new : ThreadInfo :=
  { primed := Latch.new, deque := ThreadDeque.new }

/-- The `Registry` from `src/thread_pool.rs` (its mutex-protected
state and condition variable carry no data relevant here beyond the
thread-info vector). -/
structure Registry where
  thread_infos : List ThreadInfo

/-- Constructor `Registry::new(num_threads)`: builds one `ThreadInfo`
per index in `0..num_threads` and spawns one worker thread per index;
the second component records the spawned worker indices. -/
def Registry.new (num_threads : Nat) : Registry × List Nat :=
  ({ thread_infos := (List.range num_threads).map (fun _ => ThreadInfo.new) },
   List.range num_threads)

/-- Accessor `Registry::num_threads`. -/
def Registry.num_threads (r : Registry) : Nat :=
  r.thread_infos.length

/-- Function `get_registry` from `src/thread_pool.rs`: the process-wide
registry, constructed exactly once as `Registry::new(NUM_CPUS)`. -/
def get_registry : Registry × List Nat :=
  Registry.new NUM_CPUS

/-! ## Producer, consumer and the bridge (`src/par_iter/state.rs`) -/

/-- Modelled from the spec: `par_iter/len.rs` is not under `src/`; the
threshold is the fixed scalar cost below which the bridge stops
splitting and executes sequentially. Its exact value is irrelevant to
every theorem below. -/
def THRESHOLD : ℚ := 10000

/-- Modelled from the spec: `api.rs` is not under `src/`; the result of
`join(a, b)` is the pair of both closures' results (`a` runs inline,
`b` possibly on another worker). -/
def join {α β : Type} (oper_a : Unit → α) (oper_b : Unit → β) : α × β :=
  (oper_a (), oper_b ())

/-- Operations of the `Producer` trait of `src/par_iter/state.rs` for a
producer type `P` with sequential state `σ` and item type `ι`:
`split_at`, `start`, `produce` (mutating the producer and its state and
yielding one item) and `complete`. -/
structure ProducerOps (P σ ι : Type) where
  split_at : P → Nat → P × P
  start : P → σ
  produce : P → σ → ι × P × σ
  complete : P → σ → Unit

/-- Operations of the `Consumer` trait of `src/par_iter/state.rs` for a
consumer type `C` with sequential (folder) state `σ`, item type `ι` and
result type `ρ`. -/
structure ConsumerOps (C σ ι ρ : Type) where
  split_at : C → Nat → C × C
  start : C → σ
  consume : C → σ → ι → C × σ
  complete : C → σ → ρ
  reduce : ρ → ρ → ρ

/-- Sequential branch of `bridge`: the `for _ in 0..len` loop that
produces one item and feeds it to the consumer, `len` times. -/
def bridgeLoop {P σp C σc ι ρ : Type} (pops : ProducerOps P σp ι)
    (cops : ConsumerOps C σc ι ρ) :
    Nat → P → σp → C → σc → P × σp × C × σc
  | 0, p, ps, c, cs => (p, ps, c, cs)
  | n + 1, p, ps, c, cs =>
      let pr := pops.produce p ps
      let cr := cops.consume c cs pr.1
      bridgeLoop pops cops n pr.2.1 pr.2.2 cr.1 cr.2

/-- Function `bridge` of `src/par_iter/state.rs`: splits at
`mid = len / 2` with halved cost when `len > 1 && cost > THRESHOLD`,
joining the two recursive halves and reducing their results; otherwise
starts both sides, runs the sequential produce/consume loop `len`
times, completes the producer and returns the completed consumer
state. -/
def bridge {P σp C σc ι ρ : Type} (pops : ProducerOps P σp ι)
    (cops : ConsumerOps C σc ι ρ) (len : Nat) (cost : ℚ) (p : P) (c : C) : ρ :=
  if h : len > 1 ∧ cost > THRESHOLD then
    let mid := len / 2
    let pspl := pops.split_at p mid
    let cspl := cops.split_at c mid
    let r := join (fun _ => bridge pops cops mid (cost / 2) pspl.1 cspl.1)
                  (fun _ => bridge pops cops (len - mid) (cost / 2) pspl.2 cspl.2)
    cops.reduce r.1 r.2
  else
    let ps := pops.start p
    let cs := cops.start c
    let out := bridgeLoop pops cops len p ps c cs
    let _u := pops.complete out.1 out.2.1
    cops.complete out.2.2.1 out.2.2.2
termination_by len
decreasing_by
  · omega
  · omega

/-- Instrumented producer used to count `produce` calls: the producer
value is the index of the next item, and each produced item is that
index. -/
def countingProducer : ProducerOps Nat Unit Nat :=
  { split_at := fun p mid => (p, p + mid),
    start := fun _ => (),
    produce := fun p _ => (p, p + 1, ()),
    complete := fun _ _ => () }

/-- Instrumented consumer used to count `consume` calls: its folder
state records every consumed item in order. -/
def recordingConsumer : ConsumerOps Unit (List Nat) Nat (List Nat) :=
  { split_at := fun c _ => (c, c),
    start := fun _ => [],
    consume := fun _ s item => ((), s ++ [item]),
    complete := fun _ s => s,
    reduce := fun a b => a ++ b }

/-! ## Parallel iterator state and `collect_into`
(`src/par_iter/state.rs`, `src/par_iter/collect.rs`) -/

/-- Modelled from the spec: `par_iter/len.rs` is not under `src/`; a
`ParallelLen` is the triple of an upper bound on the items to be
produced, a scalar cost estimate, and a sparseness flag (`sparse =
false` means `maximal_len` is exact). -/
structure ParallelLen where
  maximal_len : Nat
  cost : ℚ
  sparse : Bool
  deriving DecidableEq

/-- Modelled from the spec: `par_iter/len.rs` is not under `src/`; the
spec's bridge recursion descends into a left half of `mid` items at
halved cost, sparseness unchanged. -/
def ParallelLen.left_cost (pl : ParallelLen) (mid : Nat) : ParallelLen :=
  { maximal_len := mid, cost := pl.cost / 2, sparse := pl.sparse }

/-- Modelled from the spec: `par_iter/len.rs` is not under `src/`; the
spec's bridge recursion descends into a right half of the remaining
`maximal_len - mid` items at halved cost, sparseness unchanged. -/
def ParallelLen.right_cost (pl : ParallelLen) (mid : Nat) : ParallelLen :=
  { maximal_len := pl.maximal_len - mid, cost := pl.cost / 2, sparse := pl.sparse }

/-- Operations of the `ParallelIteratorState` trait of
`src/par_iter/state.rs` for a state type `S` producing items of type
`α`: `len` reports a `ParallelLen`, `split_at` divides the remaining
work, and `next` extracts one item (mutating the state; `none` means
exhausted). -/
structure StateOps (S α : Type) where
  len : S → ParallelLen
  split_at : S → Nat → S × S
  next : S → Option (α × S)

/-- Sequential drain of a state through repeated `next` calls (the
`for_each` used by `collect_into_helper`'s leaf): `Drains next s l`
holds when draining `s` terminates and yields exactly the items `l`. -/
inductive Drains {S α : Type} (next : S → Option (α × S)) : S → List α → Prop
  | done : ∀ s, next s = none → Drains next s []
  | step : ∀ s a s' l, next s = some (a, s') → Drains next s' l →
      Drains next s (a :: l)

/-- List of items paired with their write offsets, starting at `off`:
the writes a leaf of `collect_into_helper` performs through its raw
target pointer. -/
def indexedFrom {α : Type} : Nat → List α → List (Nat × α)
  | _, [] => []
  | off, a :: l => (off, a) :: indexedFrom (off + 1) l

/-- Relational embedding of `collect_into_helper` of
`src/par_iter/collect.rs`: at offset `off` of the target it either
(leaf) drains the state sequentially, writing the items at consecutive
offsets, or (node, when `len.cost > THRESHOLD && len.maximal_len > 1`)
splits the state and the target at `mid = maximal_len / 2` and joins
the two halves, whose writes are collected. -/
inductive CollectHelper {S α : Type} (ops : StateOps S α) :
    S → ParallelLen → Nat → List (Nat × α) → Prop
  | leaf : ∀ (s : S) (pl : ParallelLen) (off : Nat) (l : List α),
      ¬(pl.cost > THRESHOLD ∧ pl.maximal_len > 1) →
      Drains ops.next s l →
      CollectHelper ops s pl off (indexedFrom off l)
  | node : ∀ (s : S) (pl : ParallelLen) (off : Nat) (w1 w2 : List (Nat × α)),
      pl.cost > THRESHOLD → pl.maximal_len > 1 →
      CollectHelper ops (ops.split_at s (pl.maximal_len / 2)).1
        (pl.left_cost (pl.maximal_len / 2)) off w1 →
      CollectHelper ops (ops.split_at s (pl.maximal_len / 2)).2
        (pl.right_cost (pl.maximal_len / 2)) (off + pl.maximal_len / 2) w2 →
      CollectHelper ops s pl off (w1 ++ w2)

/-- Split contract of the unsafe `ParallelIteratorState` trait: after
`split_at(k)` the left state yields the first `k` items and the right
state the remainder. -/
def SplitOk {S α : Type} (ops : StateOps S α) : Prop :=
  ∀ (s : S) (l : List α) (k : Nat), Drains ops.next s l →
    Drains ops.next (ops.split_at s k).1 (l.take k) ∧
    Drains ops.next (ops.split_at s k).2 (l.drop k)

/-- Sequence of raw-pointer writes applied to a buffer of slots. -/
def applyWrites {α : Type} (w : List (Nat × α)) (buf : List (Option α)) :
    List (Option α) :=
  w.foldl (fun b iw => b.set iw.1 (some iw.2)) buf

/-- Final buffer of `collect_into`: the vector is cleared,
`maximal_len` slots are reserved, the helper's writes land through raw
pointer offsets, and `set_len(maximal_len)` freezes the length. -/
def collect_into_buffer {α : Type} (n : Nat) (w : List (Nat × α)) :
    List (Option α) :=
  applyWrites w (List.replicate n none)

/-- State of `SliceIter` from `src/par_iter/slice.rs`: the state is the
remaining slice; `len` reports the exact length with `cost = len` and
`sparse = false`; `split_at` splits the slice; `next` takes the first
element. -/
def sliceStateOps (α : Type) : StateOps (List α) α :=
  { len := fun s => { maximal_len := s.length, cost := (s.length : ℚ), sparse := false },
    split_at := fun s k => (s.take k, s.drop k),
    next := fun s => match s with
      | [] => none
      | a :: t => some (a, t) }

/-! ## Filter (`src/par_iter/filter.rs`) -/

/-- Retry loop of `FilterState::next` from `src/par_iter/filter.rs`
over the canonical list base state: pulls base items until one
satisfies the predicate. -/
def filterNext {α : Type} (p : α → Bool) : List α → Option (α × List α)
  | [] => none
  | a :: t => if p a then some (a, t) else filterNext p t

/-- State operations of `Filter` from `src/par_iter/filter.rs` layered
over the `SliceIter` base state: `len` forwards the base state's
`ParallelLen` unchanged, `split_at` splits the base, `next` is the
predicate retry loop. -/
def filterSliceOps {α : Type} (p : α → Bool) : StateOps (List α) α :=
  { len := fun s => (sliceStateOps α).len s,
    split_at := fun s k => (sliceStateOps α).split_at s k,
    next := filterNext p }

/-- Method `FilterConsumer::consume` from `src/par_iter/filter.rs`:
forwards the item to the base consumer when the predicate holds, and
returns the folder state unchanged otherwise. -/
def FilterConsumer.consume {σ α : Type} (p : α → Bool) (baseConsume : σ → α → σ)
    (state : σ) (item : α) : σ :=
  if p item then baseConsume state item else state

/-! ## Slice windows and chunks (`src/slice.rs`) -/

/-- Iterator `WindowsIter` from `src/slice.rs`. -/
structure WindowsIter (α : Type) where
  window_size : Nat
  slice : List α

/-- Method `WindowsIter::len` from `src/slice.rs`:
`assert!(window_size >= 1)` (modelled by `none` on failure) then
`len().saturating_sub(window_size - 1)`. -/
def WindowsIter.len {α : Type} (w : WindowsIter α) : Option Nat :=
  if 1 ≤ w.window_size then some (w.slice.length - (w.window_size - 1)) else none

/-- Method `SliceWindowsProducer::split_at` from `src/slice.rs`: the
left producer gets `slice[.. index + (window_size - 1)]`, the right
`slice[index ..]`; the out-of-range panic of slice indexing is
modelled by `none`. -/
def SliceWindowsProducer.split_at {α : Type} (w : WindowsIter α) (index : Nat) :
    Option (WindowsIter α × WindowsIter α) :=
  if index + (w.window_size - 1) ≤ w.slice.length then
    some ({ window_size := w.window_size,
            slice := w.slice.take (index + (w.window_size - 1)) },
          { window_size := w.window_size, slice := w.slice.drop index })
  else none

/-- Sequence of windows yielded by `slice.windows(n)` (the sequential
iterator the producer converts into): the `i`-th window is the `n`
elements starting at `i`. -/
def windowsSeq {α : Type} (n : Nat) (l : List α) : List (List α) :=
  (List.range (l.length + 1 - n)).map (fun i => (l.drop i).take n)

/-- Iterator `ChunksIter` from `src/slice.rs`. -/
structure ChunksIter (α : Type) where
  chunk_size : Nat
  slice : List α

/-- Iterator `ChunksMutIter` from `src/slice.rs`. -/
structure ChunksMutIter (α : Type) where
  chunk_size : Nat
  slice : List α

/-- Method `ChunksIter::len` from `src/slice.rs`:
`(len + (chunk_size - 1)) / chunk_size`; `chunk_size = 0` (division by
zero / subtraction underflow panic) is modelled by `none`. -/
def ChunksIter.len {α : Type} (c : ChunksIter α) : Option Nat :=
  if c.chunk_size = 0 then none
  else some ((c.slice.length + (c.chunk_size - 1)) / c.chunk_size)

/-- Method `ChunksMutIter::len` from `src/slice.rs`: same formula as
the shared variant. -/
def ChunksMutIter.len {α : Type} (c : ChunksMutIter α) : Option Nat :=
  if c.chunk_size = 0 then none
  else some ((c.slice.length + (c.chunk_size - 1)) / c.chunk_size)

/-- Method `SliceChunksProducer::split_at` from `src/slice.rs`: splits
the underlying slice at `elem_index = index * chunk_size` (panic on
out-of-range modelled by `none`). -/
def SliceChunksProducer.split_at {α : Type} (c : ChunksIter α) (index : Nat) :
    Option (ChunksIter α × ChunksIter α) :=
  if index * c.chunk_size ≤ c.slice.length then
    some ({ chunk_size := c.chunk_size, slice := c.slice.take (index * c.chunk_size) },
          { chunk_size := c.chunk_size, slice := c.slice.drop (index * c.chunk_size) })
  else none

/-- Method `SliceChunksMutProducer::split_at` from `src/slice.rs`:
identical splitting for the mutable variant. -/
def SliceChunksMutProducer.split_at {α : Type} (c : ChunksMutIter α) (index : Nat) :
    Option (ChunksMutIter α × ChunksMutIter α) :=
  if index * c.chunk_size ≤ c.slice.length then
    some ({ chunk_size := c.chunk_size, slice := c.slice.take (index * c.chunk_size) },
          { chunk_size := c.chunk_size, slice := c.slice.drop (index * c.chunk_size) })
  else none

/-- Sequence of chunks yielded by `slice.chunks(n)` (the sequential
iterator the producer converts into): groups of `n` consecutive
elements, the last possibly shorter. The `n = 0` panic case never
arises below. -/
def chunksSeq {α : Type} (n : Nat) : List α → List (List α)
  | [] => []
  | a :: t =>
      if _h : n = 0 then []
      else (a :: t).take n :: chunksSeq n ((a :: t).drop n)
termination_by l => l.length
decreasing_by
  simp only [List.length_drop, List.length_cons]
  omega

/-! ## Enumerate (`src/par_iter/enumerate.rs`) -/

/-- Producer `EnumerateProducer` from `src/par_iter/enumerate.rs`; the
base producer is modelled canonically as the list of its remaining
items. -/
structure EnumerateProducer (α : Type) where
  base : List α
  offset : Nat
  deriving DecidableEq

/-- Method `into_producer` of `Enumerate`: wraps the base producer
with offset 0. -/
def Enumerate.into_producer {α : Type} (base : List α) : EnumerateProducer α :=
  { base := base, offset := 0 }

/-- Method `Producer::split_at` of `EnumerateProducer`: splits the base
at `index`; the left half keeps `offset`, the right half gets
`offset + index`. -/
def EnumerateProducer.split_at {α : Type} (e : EnumerateProducer α) (index : Nat) :
    EnumerateProducer α × EnumerateProducer α :=
  ({ base := e.base.take index, offset := e.offset },
   { base := e.base.drop index, offset := e.offset + index })

/-- Method `Producer::produce` of `EnumerateProducer`: produces the next
base item paired with the current offset, then increments the offset
(`none` models producing past the promised `N` items). -/
def EnumerateProducer.produce {α : Type} (e : EnumerateProducer α) :
    Option ((Nat × α) × EnumerateProducer α) :=
  match e.base with
  | [] => none
  | a :: t => some ((e.offset, a), { base := t, offset := e.offset + 1 })

/-- Sequence of `n` `produce` calls, collecting the produced items. -/
def produceN {α : Type} : Nat → EnumerateProducer α → Option (List (Nat × α))
  | 0, _ => some []
  | n + 1, e =>
      match e.produce with
      | none => none
      | some (item, e') => (produceN n e').map (fun rest => item :: rest)

/-! ## Zip and ZipEq (`src/iter/zip_eq.rs`) -/

/-- Modelled from the spec: `iter/zip.rs` is not under `src/`;
`Zip(a, b)` pairs two indexed parallel iterators, here modelled
canonically as lists. -/
structure Zip (α β : Type) where
  a : List α
  b : List β

/-- Modelled from the spec: `zip::new(a, b)` just pairs the two
iterators. -/
def zip.new {α β : Type} (a : List α) (b : List β) : Zip α β :=
  { a := a, b := b }

/-- Modelled from the spec: `Zip`'s length is
`min(a.len(), b.len())`. -/
def Zip.len {α β : Type} (z : Zip α β) : Nat :=
  min z.a.length z.b.length

/-- Modelled from the spec: the pairs a `Zip` yields. -/
def Zip.items {α β : Type} (z : Zip α β) : List (α × β) :=
  z.a.zip z.b

/-- Wrapper `ZipEq` from `src/iter/zip_eq.rs`: holds a `Zip` and adds
no state of its own. -/
structure ZipEq (α β : Type) where
  zip : Zip α β

/-- Function `zip_eq::new` from `src/iter/zip_eq.rs`: wraps
`zip::new(a, b)` with no length check of its own. -/
def zip_eq.new {α β : Type} (a : List α) (b : List β) : ZipEq α β :=
  { zip := zip.new a b }

/-- Method `ZipEq::len` from `src/iter/zip_eq.rs`: forwards
`self.zip.len()`. -/
def ZipEq.len {α β : Type} (z : ZipEq α β) : Nat :=
  z.zip.len

/-- Items a `ZipEq` yields: both `drive` and `drive_unindexed` in
`src/iter/zip_eq.rs` bridge the inner `zip`, so it yields the inner
zip's pairs. -/
def ZipEq.items {α β : Type} (z : ZipEq α β) : List (α × β) :=
  z.zip.items

/-- Modelled from the spec: the `zip_eq` entry point (in `iter/mod.rs`,
not under `src/`) asserts the two lengths are equal — panicking
otherwise, modelled by `none` — before wrapping the pair. -/
def zip_eq {α β : Type} (a : List α) (b : List β) : Option (ZipEq α β) :=
  if a.length = b.length then some (zip_eq.new a b) else none

/-! ## Theorems -/

@[simp] theorem updLink_same (links : Nat → Link) (j : Nat) (v : Link) :
    updLink links j v j = v := by
  simp [updLink]

theorem updLink_ne (links : Nat → Link) {j n : Nat} (v : Link) (h : n ≠ j) :
    updLink links j v n = links n := by
  simp [updLink, h]

theorem chain'_imp_mem {α : Type} {R S : α → α → Prop} :
    ∀ {l : List α}, List.Chain' R l → (∀ x ∈ l, ∀ y ∈ l, R x y → S x y) →
      List.Chain' S l
  | [], _, _ => List.chain'_nil
  | [_], _, _ => List.chain'_singleton _
  | a :: b :: l, h, hm => by
    rw [List.chain'_cons] at h ⊢
    refine ⟨hm a (by simp) b (by simp) h.1, chain'_imp_mem h.2 ?_⟩
    intro x hx y hy hr
    exact hm x (by simp [hx]) y (by simp [hy]) hr

theorem push_represents {d : ThreadDeque} {l : List Nat} {j : Nat}
    (hr : Represents d l) (hj : j ∉ l) (hfresh : (d.links j).next = none) :
    Represents (d.push j) (l ++ [j]) := by
  obtain ⟨hb, ht, hc, hp, hn, hd⟩ := hr
  rcases l.eq_nil_or_concat with rfl | ⟨l', t, rfl⟩
  · simp only [List.head?_nil, List.getLast?_nil] at hb ht
    refine ⟨?_, ?_, ?_, ?_, ?_, ?_⟩ <;>
      simp [ThreadDeque.push, hb, ht, Represents, PrevNone, NextNone, LinkRel, hfresh]
  · rw [List.concat_eq_append] at hj hb ht hc hp hn hd ⊢
    have htj : t ≠ j := by
      intro h
      exact hj (h ▸ List.mem_append_right l' (List.mem_singleton_self t))
    have htop : d.top = some t := by rw [ht, List.getLast?_concat]
    have hbot : d.bottom = (l' ++ [t]).head? := hb
    have hne : l' ++ [t] ≠ [] := by simp
    -- unfold the push with the known top
    have hpush : d.push j =
        { top := some j,
          bottom := d.bottom,
          links := updLink (updLink d.links j { previous := some t, next := (d.links j).next }) t
            { previous := ((updLink d.links j
                { previous := some t, next := (d.links j).next }) t).previous,
              next := some j } } := by
      simp only [ThreadDeque.push, htop]
      rcases hbb : d.bottom with _ | b
      · rw [hbb] at hbot
        rcases l' with _ | ⟨a, l''⟩ <;> simp at hbot
      · rfl
    set links1 := updLink d.links j { previous := some t, next := (d.links j).next } with hl1
    set links2 := updLink links1 t
      { previous := (links1 t).previous, next := some j } with hl2
    have h1t : links1 t = d.links t := updLink_ne _ _ htj
    have h2j : links2 j = links1 j := updLink_ne _ _ (Ne.symm htj)
    have h1j : links1 j = { previous := some t, next := (d.links j).next } := updLink_same _ _ _
    have h2t : links2 t = { previous := (links1 t).previous, next := some j } := updLink_same _ _ _
    have hother : ∀ x, x ≠ j → x ≠ t → links2 x = d.links x := by
      intro x hxj hxt
      rw [hl2, updLink_ne _ _ hxt, hl1, updLink_ne _ _ hxj]
    have hlast_next : (d.links t).next = none := by
      rw [List.getLast?_concat] at hn
      exact hn
    refine ⟨?_, ?_, ?_, ?_, ?_, ?_⟩
    · rw [hpush]
      show d.bottom = (l' ++ [t] ++ [j]).head?
      rw [List.head?_append_of_ne_nil _ hne]
      exact hb
    · rw [hpush]
      show some j = (l' ++ [t] ++ [j]).getLast?
      rw [List.getLast?_concat]
    · rw [hpush]
      show List.Chain' (LinkRel links2) (l' ++ [t] ++ [j])
      rw [List.chain'_append]
      refine ⟨?_, List.chain'_singleton _, ?_⟩
      · refine chain'_imp_mem hc ?_
        intro x hx y hy hxy
        rcases eq_or_ne x t with rfl | hxt
        · exact absurd (hlast_next ▸ hxy.1) (by simp)
        have hxj : x ≠ j := fun h => hj (h ▸ hx)
        have hyj : y ≠ j := fun h => hj (h ▸ hy)
        constructor
        · rw [hother x hxj hxt]
          exact hxy.1
        · rcases eq_or_ne y t with rfl | hyt
          · rw [h2t]
            simp only [h1t]
            exact hxy.2
          · rw [hother y hyj hyt]
            exact hxy.2
      · intro x hx y hy
        rw [List.getLast?_concat] at hx
        simp only [List.head?_cons, Option.mem_some_iff] at hy
        cases hx
        cases hy
        refine ⟨by rw [h2t], ?_⟩
        rw [h2j, h1j]
    · rw [hpush]
      show PrevNone { bottom := d.bottom, top := some j, links := links2 }
        (l' ++ [t] ++ [j]).head?
      rw [List.head?_append_of_ne_nil _ hne]
      rcases hh : (l' ++ [t]).head? with _ | a
      · exact trivial
      · have ha : a ∈ l' ++ [t] := List.mem_of_mem_head? hh
        have haj : a ≠ j := fun h => hj (h ▸ ha)
        rw [hh] at hp
        show (links2 a).previous = none
        rcases eq_or_ne a t with rfl | hat
        · rw [h2t]
          simp only [h1t]
          exact hp
        · rw [hother a haj hat]
          exact hp
    · rw [hpush]
      show NextNone { bottom := d.bottom, top := some j, links := links2 }
        (l' ++ [t] ++ [j]).getLast?
      rw [List.getLast?_concat]
      show (links2 j).next = none
      rw [h2j, h1j]
      exact hfresh
    · show (l' ++ [t] ++ [j]).Nodup
      refine List.Nodup.append hd (List.nodup_singleton j) ?_
      intro x hx hx'
      rw [List.mem_singleton] at hx'
      exact hj (hx' ▸ hx)

theorem pop_fst_iff (d : ThreadDeque) (j : Nat) :
    (d.pop j).1 = true ↔ d.top = some j := by
  by_cases h : d.top = some j
  · rcases hp : (d.links j).previous with _ | p <;>
      simp [ThreadDeque.pop, h, hp]
  · simp [ThreadDeque.pop, h]

theorem pop_not_top (d : ThreadDeque) (j : Nat) (h : d.top ≠ some j) :
    d.pop j = (false, d) := by
  simp [ThreadDeque.pop, h]

theorem pop_represents {d : ThreadDeque} {l : List Nat} {j : Nat}
    (hr : Represents d (l ++ [j])) :
    (d.pop j).1 = true ∧ Represents (d.pop j).2 l := by
  obtain ⟨hb, ht, hc, hp, hn, hd⟩ := hr
  have htop : d.top = some j := by rw [ht, List.getLast?_concat]
  have hjl : j ∉ l := by
    intro h
    have := List.disjoint_of_nodup_append hd
    exact this h (List.mem_singleton_self j)
  rcases l.eq_nil_or_concat with rfl | ⟨l', t, rfl⟩
  · have hprev : (d.links j).previous = none := by
      simpa [PrevNone] using hp
    refine ⟨by rw [pop_fst_iff]; exact htop, ?_⟩
    simp [ThreadDeque.pop, htop, hprev, Represents, PrevNone, NextNone]
  · rw [List.concat_eq_append] at hjl hb ht hc hp hn hd ⊢
    have htj : t ≠ j := by
      intro h
      exact hjl (h ▸ List.mem_append_right l' (List.mem_singleton_self t))
    rw [List.chain'_append] at hc
    obtain ⟨hcl, -, hbd⟩ := hc
    have hlink : LinkRel d.links t j := by
      refine hbd t ?_ j ?_
      · rw [List.getLast?_concat]
        rfl
      · rfl
    have hprev : (d.links j).previous = some t := hlink.2
    have hne : l' ++ [t] ≠ [] := by simp
    have hpop : d.pop j =
        (true, { d with top := some t,
                        links := updLink d.links t
                          { previous := (d.links t).previous, next := none } }) := by
      simp [ThreadDeque.pop, htop, hprev]
    set links' := updLink d.links t
      { previous := (d.links t).previous, next := none } with hl'
    have h't : links' t = { previous := (d.links t).previous, next := none } :=
      updLink_same _ _ _
    have hother : ∀ x, x ≠ t → links' x = d.links x := fun x hx => updLink_ne _ _ hx
    have hd' : (l' ++ [t]).Nodup := (List.nodup_append.mp hd).1
    rw [hpop]
    refine ⟨rfl, ?_, ?_, ?_, ?_, ?_, hd'⟩
    · show d.bottom = (l' ++ [t]).head?
      rw [hb, List.head?_append_of_ne_nil _ hne]
    · show some t = (l' ++ [t]).getLast?
      rw [List.getLast?_concat]
    · show List.Chain' (LinkRel links') (l' ++ [t])
      refine chain'_imp_mem hcl ?_
      intro x hx y hy hxy
      constructor
      · rcases eq_or_ne x t with rfl | hxt
        · exfalso
          have : y = j := by
            have := hlink.1
            rw [hxy.1] at this
            exact (Option.some_inj.mp this)
          exact hjl (this ▸ hy)
        · rw [hother x hxt]
          exact hxy.1
      · rcases eq_or_ne y t with rfl | hyt
        · rw [h't]
          exact hxy.2
        · rw [hother y hyt]
          exact hxy.2
    · show PrevNone _ (l' ++ [t]).head?
      rw [List.head?_append_of_ne_nil _ hne] at hp
      rcases hh : (l' ++ [t]).head? with _ | a
      · exact trivial
      · rw [hh] at hp
        show (links' a).previous = none
        rcases eq_or_ne a t with rfl | hat
        · rw [h't]
          exact hp
        · rw [hother a hat]
          exact hp
    · show NextNone _ (l' ++ [t]).getLast?
      rw [List.getLast?_concat]
      show (links' t).next = none
      rw [h't]

theorem steal_of_empty {d : ThreadDeque} (hr : Represents d []) :
    d.steal = (none, d) := by
  obtain ⟨hb, -, -, -, -, -⟩ := hr
  simp only [List.head?_nil] at hb
  simp [ThreadDeque.steal, hb]

theorem steal_represents {d : ThreadDeque} {j : Nat} {l : List Nat}
    (hr : Represents d (j :: l)) :
    (d.steal).1 = some j ∧ Represents (d.steal).2 l := by
  obtain ⟨hb, ht, hc, hp, hn, hd⟩ := hr
  have hbot : d.bottom = some j := by rw [hb]; rfl
  have hjl : j ∉ l := (List.nodup_cons.mp hd).1
  have hdl : l.Nodup := (List.nodup_cons.mp hd).2
  rcases l with _ | ⟨b, l2⟩
  · have hnext : (d.links j).next = none := by
      simpa [NextNone] using hn
    constructor
    · simp [ThreadDeque.steal, hbot, hnext]
    · simp [ThreadDeque.steal, hbot, hnext, Represents, PrevNone, NextNone]
  · rw [List.chain'_cons] at hc
    obtain ⟨hjb, hcl⟩ := hc
    have hnext : (d.links j).next = some b := hjb.1
    have hbj : b ≠ j := by
      intro h
      exact hjl (h ▸ List.mem_cons_self b l2)
    have hsteal : d.steal =
        (some j, { d with bottom := some b,
                          links := updLink d.links b
                            { previous := none, next := (d.links b).next } }) := by
      simp [ThreadDeque.steal, hbot, hnext]
    set links' := updLink d.links b
      { previous := none, next := (d.links b).next } with hl'
    have h'b : links' b = { previous := none, next := (d.links b).next } :=
      updLink_same _ _ _
    have hother : ∀ x, x ≠ b → links' x = d.links x := fun x hx => updLink_ne _ _ hx
    rw [hsteal]
    refine ⟨rfl, rfl, ?_, ?_, ?_, ?_, hdl⟩
    · show d.top = (b :: l2).getLast?
      rw [ht]
      rfl
    · show List.Chain' (LinkRel links') (b :: l2)
      refine chain'_imp_mem hcl ?_
      intro x hx y hy hxy
      constructor
      · rcases eq_or_ne x b with rfl | hxb
        · rw [h'b]
          exact hxy.1
        · rw [hother x hxb]
          exact hxy.1
      · rcases eq_or_ne y b with rfl | hyb
        · exfalso
          have : x = j := by
            have := hjb.2
            rw [hxy.2] at this
            exact (Option.some_inj.mp this)
          exact hjl (this ▸ hx)
        · rw [hother y hyb]
          exact hxy.2
    · show (links' b).previous = none
      rw [h'b]
    · show NextNone _ (b :: l2).getLast?
      have : (j :: b :: l2).getLast? = (b :: l2).getLast? := rfl
      rw [this] at hn
      rcases hh : (b :: l2).getLast? with _ | a
      · exact trivial
      · rw [hh] at hn
        show (links' a).next = none
        rcases eq_or_ne a b with rfl | hab
        · rw [h'b]
          exact hn
        · rw [hother a hab]
          exact hn

theorem stealsN_spec {d : ThreadDeque} {l : List Nat} (hr : Represents d l) :
    ∀ n, (stealsN n d).1 = l.take n ∧ Represents (stealsN n d).2 (l.drop n) := by
  induction l generalizing d with
  | nil =>
    intro n
    induction n generalizing d with
    | zero => exact ⟨rfl, hr⟩
    | succ n ih =>
      have he := steal_of_empty hr
      simp only [stealsN, he]
      have := ih hr
      simpa using this
  | cons j l ihl =>
    intro n
    cases n with
    | zero => exact ⟨rfl, hr⟩
    | succ n =>
      obtain ⟨h1, h2⟩ := steal_represents hr
      have := ihl h2 n
      simp only [stealsN, h1, List.take_succ_cons, List.drop_succ_cons]
      constructor
      · simp [this.1]
      · exact this.2

theorem represents_endsNull {d : ThreadDeque} {l : List Nat}
    (hr : Represents d l) : EndsNull d := by
  obtain ⟨hb, ht, -, hp, hn, -⟩ := hr
  refine ⟨?_, ht ▸ hn, hb ▸ hp⟩
  rw [hb, ht]
  cases l with
  | nil => simp
  | cons a l =>
    simp only [List.head?_cons]
    constructor
    · intro h
      rw [List.getLast?_eq_getLast (a :: l) (by simp)] at h
      cases h
    · intro h
      cases h

/-- C4: `pop(job)`, called by the owning worker, returns true if and
only if `job` is still at the top of that worker's deque — equivalently,
after any number of peer steals, iff no peer has stolen `job`; on
success it unlinks `job` from the top end, restoring the previous job
as top or leaving the deque empty, and on failure the deque is left
unchanged. -/
theorem pop_spec :
    (∀ (d : ThreadDeque) (j : Nat), (d.pop j).1 = true ↔ d.top = some j) ∧
    (∀ (d : ThreadDeque) (j : Nat), (d.pop j).1 = false → (d.pop j).2 = d) ∧
    (∀ (d : ThreadDeque) (l : List Nat) (j : Nat), Represents d (l ++ [j]) →
      (d.pop j).1 = true ∧ Represents (d.pop j).2 l ∧
      (d.pop j).2.top = l.getLast? ∧
      ((d.pop j).2.top = none ↔ (d.pop j).2.bottom = none)) ∧
    (∀ (d : ThreadDeque) (l : List Nat) (j : Nat) (n : Nat),
      Represents d (l ++ [j]) →
      (((stealsN n d).2.pop j).1 = true ↔ j ∉ (stealsN n d).1)) := by
  refine ⟨pop_fst_iff, ?_, ?_, ?_⟩
  · intro d j h
    have ht : d.top ≠ some j := by
      intro hc
      rw [(pop_fst_iff d j).mpr hc] at h
      cases h
    rw [pop_not_top d j ht]
  · intro d l j hr
    obtain ⟨h1, h2⟩ := pop_represents hr
    exact ⟨h1, h2, h2.2.1, (represents_endsNull h2).1⟩
  · intro d l j n hr
    have hjl : j ∉ l := by
      intro h
      obtain ⟨-, -, -, -, -, hd⟩ := hr
      exact List.disjoint_of_nodup_append hd h (List.mem_singleton_self j)
    obtain ⟨hs1, hs2⟩ := stealsN_spec hr n
    obtain ⟨-, htop, -, -, -, -⟩ := hs2
    rw [pop_fst_iff, htop, hs1]
    by_cases hn : n ≤ l.length
    · rw [List.drop_append_of_le_length hn, List.getLast?_concat,
        List.take_append_of_le_length hn]
      simp only [true_iff]
      intro hmem
      exact hjl (List.take_subset n l hmem)
    · push_neg at hn
      have hlen : (l ++ [j]).length ≤ n := by
        simp only [List.length_append, List.length_singleton]
        omega
      rw [List.drop_eq_nil_of_le hlen, List.take_of_length_le hlen]
      simp only [List.getLast?_nil]
      constructor
      · intro h
        cases h
      · intro h
        exact absurd (List.mem_append_right l (List.mem_singleton_self j)) h

/-- Witness for C4 on the concrete deque `dEx` representing `[1, 2]`:
pop of the top job 2 succeeds and restores job 1 as top; pop of an
absent job 3 fails and leaves the deque unchanged; after one steal
(which takes job 1 from the bottom) popping 2 still succeeds. -/
theorem pop_spec_witness :
    ((dEx.pop 2).1 = true ↔ dEx.top = some 2) ∧
    ((dEx.pop 3).2 = dEx) ∧
    ((dEx.pop 2).1 = true ∧ Represents (dEx.pop 2).2 [1] ∧
      (dEx.pop 2).2.top = [1].getLast? ∧
      ((dEx.pop 2).2.top = none ↔ (dEx.pop 2).2.bottom = none)) ∧
    (((stealsN 1 dEx).2.pop 2).1 = true ↔ 2 ∉ (stealsN 1 dEx).1) :=
  ⟨pop_spec.1 dEx 2,
   pop_spec.2.1 dEx 3 (by decide),
   pop_spec.2.2.1 dEx [1] 2 (by decide),
   pop_spec.2.2.2 dEx [1] 2 1 (by decide)⟩

/-- C5 counterexample: the invariant as claimed ("top's `previous` and
bottom's `next` are null") is not preserved by `push`: pushing job 2
onto a legitimate one-job deque (which satisfies the claimed invariant)
yields a state whose top job 2 has `previous = some 1`. -/
theorem deque_claimed_invariant_cex :
    Represents (ThreadDeque.new.push 1) [1] ∧
    ClaimedDequeInv (ThreadDeque.new.push 1) ∧
    ((ThreadDeque.new.push 1).links 2).next = none ∧
    (2 : Nat) ∉ [1] ∧
    ¬ ClaimedDequeInv ((ThreadDeque.new.push 1).push 2) ∧
    (((ThreadDeque.new.push 1).push 2).links 2).previous = some 1 := by
  refine ⟨by decide, by decide, by decide, by decide, ?_, by decide⟩
  intro h
  have := h.2.1
  revert this
  decide

/-- C5 (amended): every deque operation — push of a fresh job by the
owner, targeted pop by the owner, steal from the bottom end — preserves
the linked-list representation invariant, under which an empty deque
has both ends null and a non-empty deque has a null `next` pointer on
the top job and a null `previous` pointer on the bottom job (the
specification swaps `previous` and `next` here). -/
theorem deque_ops_preserve_invariant :
    (∀ (d : ThreadDeque) (l : List Nat) (j : Nat),
      Represents d l → j ∉ l → (d.links j).next = none →
      Represents (d.push j) (l ++ [j]) ∧ EndsNull (d.push j)) ∧
    (∀ (d : ThreadDeque) (l : List Nat) (j : Nat),
      Represents d (l ++ [j]) →
      Represents (d.pop j).2 l ∧ EndsNull (d.pop j).2) ∧
    (∀ (d : ThreadDeque) (l : List Nat),
      Represents d l →
      Represents d.steal.2 (l.drop 1) ∧ EndsNull d.steal.2) := by
  refine ⟨?_, ?_, ?_⟩
  · intro d l j hr hj hfresh
    have h := push_represents hr hj hfresh
    exact ⟨h, represents_endsNull h⟩
  · intro d l j hr
    have h := (pop_represents hr).2
    exact ⟨h, represents_endsNull h⟩
  · intro d l hr
    cases l with
    | nil =>
      rw [steal_of_empty hr]
      exact ⟨hr, represents_endsNull hr⟩
    | cons a l =>
      have h := (steal_represents hr).2
      exact ⟨h, represents_endsNull h⟩

/-- Witness for the amended C5 on concrete deques: pushing fresh job 2
onto the one-job deque, popping the top of `dEx`, and stealing from
`dEx` all preserve the representation and the end-null invariant. -/
theorem deque_ops_preserve_invariant_witness :
    (Represents ((ThreadDeque.new.push 1).push 2) ([1] ++ [2]) ∧
      EndsNull ((ThreadDeque.new.push 1).push 2)) ∧
    (Represents (dEx.pop 2).2 [1] ∧ EndsNull (dEx.pop 2).2) ∧
    (Represents dEx.steal.2 ([1, 2].drop 1) ∧ EndsNull dEx.steal.2) :=
  ⟨deque_ops_preserve_invariant.1 (ThreadDeque.new.push 1) [1] 2
      (by decide) (by decide) (by decide),
   deque_ops_preserve_invariant.2.1 dEx [1] 2 (by decide),
   deque_ops_preserve_invariant.2.2 dEx [1, 2] (by decide)⟩

/-- C10: the global registry returned by `get_registry` is constructed
with exactly 4 worker threads (the hard-coded `NUM_CPUS`):
`Registry::new(n)` creates exactly `n` `ThreadInfo` records and spawns
exactly `n` workers, `num_threads()` returns that `n`, and the
process-wide registry is fixed at 4. -/
theorem get_registry_four_threads :
    (∀ n : Nat,
      (Registry.new n).1.thread_infos.length = n ∧
      (Registry.new n).2.length = n ∧
      (Registry.new n).1.num_threads = n) ∧
    NUM_CPUS = 4 ∧
    get_registry = Registry.new 4 ∧
    get_registry.1.num_threads = 4 ∧
    get_registry.2 = [0, 1, 2, 3] := by
  refine ⟨?_, rfl, rfl, rfl, rfl⟩
  intro n
  refine ⟨?_, List.length_range n, ?_⟩ <;>
    simp [Registry.new, Registry.num_threads]

theorem bridgeLoop_recording (n : Nat) :
    ∀ (p : Nat) (s : List Nat),
      bridgeLoop countingProducer recordingConsumer n p () () s =
        (p + n, (), (), s ++ (List.range n).map (fun i => p + i)) := by
  induction n with
  | zero =>
    intro p s
    simp [bridgeLoop]
  | succ n ih =>
    intro p s
    rw [bridgeLoop]
    show bridgeLoop countingProducer recordingConsumer n (p + 1) () () (s ++ [p]) = _
    rw [ih]
    simp only [Prod.mk.injEq, List.range_succ_eq_map, List.map_cons, List.map_map,
      Nat.add_zero, List.append_assoc, List.singleton_append, true_and]
    refine ⟨by omega, congrArg (fun z => s ++ p :: z) (List.map_congr_left ?_)⟩
    intro i _
    simp only [Function.comp_apply]
    omega

/-- C3: `bridge` splits if and only if `len > 1` and `cost > THRESHOLD`;
when it splits it divides producer and consumer at `mid = len / 2`,
recurses on both halves through `join` with halved cost, and returns
the consumer's `reduce` of the two sub-results; otherwise it runs
sequentially, calling `produce` and `consume` exactly `len` times each
(witnessed by the instrumented producer/consumer, whose result lists
the `len` successive produce-call indices) and returning the completed
folder state. -/
theorem bridge_split_iff :
    (∀ (P σp C σc ι ρ : Type) (pops : ProducerOps P σp ι)
       (cops : ConsumerOps C σc ι ρ) (len : Nat) (cost : ℚ) (p : P) (c : C),
      (len > 1 → cost > THRESHOLD →
        bridge pops cops len cost p c =
          cops.reduce
            (bridge pops cops (len / 2) (cost / 2)
              (pops.split_at p (len / 2)).1 (cops.split_at c (len / 2)).1)
            (bridge pops cops (len - len / 2) (cost / 2)
              (pops.split_at p (len / 2)).2 (cops.split_at c (len / 2)).2)) ∧
      (¬(len > 1 ∧ cost > THRESHOLD) →
        bridge pops cops len cost p c =
          cops.complete
            (bridgeLoop pops cops len p (pops.start p) c (cops.start c)).2.2.1
            (bridgeLoop pops cops len p (pops.start p) c (cops.start c)).2.2.2)) ∧
    (∀ (len : Nat) (cost : ℚ) (start : Nat), ¬(len > 1 ∧ cost > THRESHOLD) →
      bridge countingProducer recordingConsumer len cost start () =
        (List.range len).map (fun i => start + i)) := by
  constructor
  · intro P σp C σc ι ρ pops cops len cost p c
    constructor
    · intro h1 h2
      rw [bridge]
      simp [dif_pos (And.intro h1 h2), join]
    · intro h
      rw [bridge]
      simp [dif_neg h]
  · intro len cost start h
    rw [bridge]
    rw [dif_neg h]
    show recordingConsumer.complete
        (bridgeLoop countingProducer recordingConsumer len start () () []).2.2.1
        (bridgeLoop countingProducer recordingConsumer len start () () []).2.2.2 = _
    rw [bridgeLoop_recording]
    simp [recordingConsumer]

/-- Witness for C3 at concrete inputs: a length-4 expensive bridge
splits into halves of length 2 at halved cost; a length-1 bridge runs
the sequential loop; a cheap length-3 bridge consumes exactly the three
produce-call indices 5, 6, 7. -/
theorem bridge_split_iff_witness :
    (bridge countingProducer recordingConsumer 4 (THRESHOLD + 1) 0 () =
      recordingConsumer.reduce
        (bridge countingProducer recordingConsumer 2 ((THRESHOLD + 1) / 2)
          (countingProducer.split_at 0 2).1 (recordingConsumer.split_at () 2).1)
        (bridge countingProducer recordingConsumer 2 ((THRESHOLD + 1) / 2)
          (countingProducer.split_at 0 2).2 (recordingConsumer.split_at () 2).2)) ∧
    (bridge countingProducer recordingConsumer 1 (THRESHOLD + 1) 0 () =
      recordingConsumer.complete
        (bridgeLoop countingProducer recordingConsumer 1 0
          (countingProducer.start 0) () (recordingConsumer.start ())).2.2.1
        (bridgeLoop countingProducer recordingConsumer 1 0
          (countingProducer.start 0) () (recordingConsumer.start ())).2.2.2) ∧
    (bridge countingProducer recordingConsumer 3 0 5 () =
      (List.range 3).map (fun i => 5 + i)) :=
  ⟨(bridge_split_iff.1 Nat Unit Unit (List Nat) Nat (List Nat)
      countingProducer recordingConsumer 4 (THRESHOLD + 1) 0 ()).1
      (by norm_num) (by norm_num [THRESHOLD]),
   (bridge_split_iff.1 Nat Unit Unit (List Nat) Nat (List Nat)
      countingProducer recordingConsumer 1 (THRESHOLD + 1) 0 ()).2
      (by norm_num),
   bridge_split_iff.2 3 0 5 (by norm_num [THRESHOLD])⟩

theorem drains_unique {S α : Type} {next : S → Option (α × S)} {s : S}
    {l : List α} (h : Drains next s l) :
    ∀ {l' : List α}, Drains next s l' → l = l' := by
  induction h with
  | done s hn =>
    intro l' h'
    cases h' with
    | done _ _ => rfl
    | step _ a s' l hs _ => rw [hn] at hs; cases hs
  | step s a s' l hs hd ih =>
    intro l' h'
    cases h' with
    | done _ hn => rw [hn] at hs; cases hs
    | step _ a2 s2 l2 hs2 hd2 =>
      rw [hs] at hs2
      obtain ⟨rfl, rfl⟩ : a2 = a ∧ s2 = s' := by
        have := Option.some_inj.mp hs2
        exact ⟨congrArg Prod.fst this.symm, congrArg Prod.snd this.symm⟩
      rw [ih hd2]

theorem indexedFrom_append {α : Type} (a : List α) :
    ∀ (b : List α) (off : Nat),
      indexedFrom off (a ++ b) = indexedFrom off a ++ indexedFrom (off + a.length) b := by
  induction a with
  | nil => intro b off; simp [indexedFrom]
  | cons x a ih =>
    intro b off
    rw [List.cons_append, indexedFrom, indexedFrom, ih]
    simp only [List.cons_append, List.length_cons]
    refine congrArg (fun z => (off, x) :: (indexedFrom (off + 1) a ++ z)) ?_
    refine congrArg (fun m => indexedFrom m b) ?_
    omega

theorem indexedFrom_map_fst {α : Type} :
    ∀ (l : List α) (off : Nat),
      (indexedFrom off l).map Prod.fst = (List.range l.length).map (fun i => off + i) := by
  intro l
  induction l with
  | nil => intro off; simp [indexedFrom]
  | cons a l ih =>
    intro off
    rw [indexedFrom, List.map_cons, ih]
    simp only [List.length_cons, List.range_succ_eq_map, List.map_cons, List.map_map,
      Nat.add_zero]
    refine congrArg (fun z => off :: z) (List.map_congr_left ?_)
    intro i _
    simp only [Function.comp_apply]
    omega

theorem indexedFrom_map_snd {α : Type} :
    ∀ (l : List α) (off : Nat), (indexedFrom off l).map Prod.snd = l := by
  intro l
  induction l with
  | nil => intro off; simp [indexedFrom]
  | cons a l ih =>
    intro off
    rw [indexedFrom, List.map_cons, ih]

theorem collectHelper_eq {S α : Type} {ops : StateOps S α} (hs : SplitOk ops) :
    ∀ {s : S} {pl : ParallelLen} {off : Nat} {w : List (Nat × α)},
      CollectHelper ops s pl off w →
      ∀ l, Drains ops.next s l → pl.maximal_len = l.length →
        w = indexedFrom off l := by
  intro s pl off w h
  induction h with
  | leaf s pl off l0 hc hd =>
    intro l hdl _
    rw [drains_unique hd hdl]
  | node s pl off w1 w2 hcost hbig h1 h2 ih1 ih2 =>
    intro l hdl hml
    obtain ⟨hl, hr⟩ := hs s l (pl.maximal_len / 2) hdl
    have hmle : pl.maximal_len / 2 ≤ l.length := by
      rw [← hml]
      exact Nat.div_le_self _ _
    have e1 : w1 = indexedFrom off (l.take (pl.maximal_len / 2)) := by
      refine ih1 _ hl ?_
      simp only [ParallelLen.left_cost, List.length_take]
      omega
    have e2 : w2 = indexedFrom (off + pl.maximal_len / 2) (l.drop (pl.maximal_len / 2)) := by
      refine ih2 _ hr ?_
      simp only [ParallelLen.right_cost, List.length_drop]
      omega
    rw [e1, e2]
    have ha := indexedFrom_append (l.take (pl.maximal_len / 2))
      (l.drop (pl.maximal_len / 2)) off
    rw [List.take_append_drop, List.length_take, Nat.min_eq_left hmle] at ha
    rw [← ha]

theorem collectHelper_exists {S α : Type} (ops : StateOps S α) (hs : SplitOk ops) :
    ∀ (n : Nat) (s : S) (l : List α) (pl : ParallelLen) (off : Nat),
      pl.maximal_len = l.length → l.length ≤ n → Drains ops.next s l →
      ∃ w, CollectHelper ops s pl off w := by
  intro n
  induction n with
  | zero =>
    intro s l pl off hml hle hd
    refine ⟨_, CollectHelper.leaf s pl off l ?_ hd⟩
    intro hcon
    omega
  | succ n ih =>
    intro s l pl off hml hle hd
    by_cases hc : pl.cost > THRESHOLD ∧ pl.maximal_len > 1
    · obtain ⟨hsl, hsr⟩ := hs s l (pl.maximal_len / 2) hd
      obtain ⟨w1, h1⟩ := ih (ops.split_at s (pl.maximal_len / 2)).1
        (l.take (pl.maximal_len / 2)) (pl.left_cost (pl.maximal_len / 2)) off
        (by simp only [ParallelLen.left_cost, List.length_take]; omega)
        (by simp only [List.length_take]; omega) hsl
      obtain ⟨w2, h2⟩ := ih (ops.split_at s (pl.maximal_len / 2)).2
        (l.drop (pl.maximal_len / 2)) (pl.right_cost (pl.maximal_len / 2))
        (off + pl.maximal_len / 2)
        (by simp only [ParallelLen.right_cost, List.length_drop]; omega)
        (by simp only [List.length_drop]; omega) hsr
      exact ⟨w1 ++ w2, CollectHelper.node s pl off w1 w2 hc.1 hc.2 h1 h2⟩
    · exact ⟨_, CollectHelper.leaf s pl off l hc hd⟩

theorem applyWrites_fill {α : Type} :
    ∀ (l : List α) (off : Nat) (buf : List (Option α)),
      buf.length = off + l.length →
      applyWrites (indexedFrom off l) buf = buf.take off ++ l.map some := by
  intro l
  induction l with
  | nil =>
    intro off buf hlen
    show buf = buf.take off ++ ([] : List α).map some
    rw [List.map_nil, List.append_nil, List.take_of_length_le (by simp at hlen; omega)]
  | cons a l ih =>
    intro off buf hlen
    rw [indexedFrom]
    show applyWrites (indexedFrom (off + 1) l) (buf.set off (some a)) = _
    rw [ih (off + 1) (buf.set off (some a)) (by rw [List.length_set]; simp at hlen; omega)]
    have hofflt : off < buf.length := by
      rw [hlen, List.length_cons]
      omega
    rw [List.take_succ, List.set_take, List.set_eq_of_length_le
      (le_of_eq (by rw [List.length_take]; omega)),
      List.getElem?_set_self hofflt]
    simp only [Option.toList_some, List.map_cons, List.append_assoc, List.singleton_append]

theorem drains_slice {α : Type} :
    ∀ (s l : List α), Drains (sliceStateOps α).next s l ↔ s = l := by
  intro s l
  constructor
  · intro h
    induction h with
    | done s hn =>
      cases s with
      | nil => rfl
      | cons a t => cases hn
    | step s a s' l hs hd ih =>
      cases s with
      | nil => cases hs
      | cons b t =>
        have : b = a ∧ t = s' := by
          have := Option.some_inj.mp hs
          exact ⟨congrArg Prod.fst this, congrArg Prod.snd this⟩
        rw [this.1, this.2, ih]
  · intro h
    subst h
    induction s with
    | nil => exact Drains.done _ rfl
    | cons a t ih => exact Drains.step _ a t t rfl ih

theorem slice_splitOk {α : Type} : SplitOk (sliceStateOps α) := by
  intro s l k hd
  rw [drains_slice] at hd
  subst hd
  constructor <;> rw [drains_slice] <;> rfl

/-- C2: for every parallel iterator whose state honours the unsafe
contract (`SplitOk`, and a drain yielding exactly the reported
non-sparse `maximal_len` items), `collect_into(v)` leaves `v` with
length exactly `n`: every execution of `collect_into_helper` writes
exactly the slots `0..n`, each exactly once, slot `i` receiving the
`i`-th item, so the buffer frozen by `set_len` holds precisely the
items in order. -/
theorem collect_into_exact {S α : Type} (ops : StateOps S α) (s : S)
    (l : List α) (pl : ParallelLen)
    (hs : SplitOk ops) (hd : Drains ops.next s l)
    (_hrep : ops.len s = pl) (_hsp : pl.sparse = false)
    (hexact : pl.maximal_len = l.length) :
    (∃ w, CollectHelper ops s pl 0 w) ∧
    (∀ w, CollectHelper ops s pl 0 w →
      w = indexedFrom 0 l ∧
      w.map Prod.fst = List.range pl.maximal_len ∧
      w.map Prod.snd = l ∧
      collect_into_buffer pl.maximal_len w = l.map some) := by
  constructor
  · exact collectHelper_exists ops hs l.length s l pl 0 hexact le_rfl hd
  · intro w hw
    have hweq : w = indexedFrom 0 l := collectHelper_eq hs hw l hd hexact
    refine ⟨hweq, ?_, ?_, ?_⟩
    · rw [hweq, indexedFrom_map_fst, hexact]
      simp
    · rw [hweq, indexedFrom_map_snd]
    · rw [hweq, collect_into_buffer, hexact,
        applyWrites_fill l 0 (List.replicate l.length none) (by simp)]
      simp

/-- Witness for C2: the slice state `[5, 6]` reports the exact length
2, and collecting it writes slots 0 and 1 once each with items 5 and
6. -/
theorem collect_into_exact_witness :
    (∃ w, CollectHelper (sliceStateOps Nat) [5, 6]
      { maximal_len := 2, cost := 2, sparse := false } 0 w) ∧
    (∀ w, CollectHelper (sliceStateOps Nat) [5, 6]
      { maximal_len := 2, cost := 2, sparse := false } 0 w →
      w = indexedFrom 0 [5, 6] ∧
      w.map Prod.fst = List.range 2 ∧
      w.map Prod.snd = [5, 6] ∧
      collect_into_buffer 2 w = [5, 6].map some) :=
  collect_into_exact (sliceStateOps Nat) [5, 6] [5, 6]
    { maximal_len := 2, cost := 2, sparse := false }
    slice_splitOk ((drains_slice [5, 6] [5, 6]).mpr rfl) rfl rfl rfl

theorem drains_congr_head {S α : Type} {next : S → Option (α × S)} {s s' : S}
    {l : List α} (heq : next s' = next s) (hd : Drains next s l) :
    Drains next s' l := by
  cases hd with
  | done _ hn => exact Drains.done _ (heq.trans hn)
  | step _ a s2 rest hs hdd => exact Drains.step _ a s2 rest (heq.trans hs) hdd

theorem drains_filter {α : Type} (p : α → Bool) :
    ∀ l : List α, Drains (filterNext p) l (l.filter p) := by
  intro l
  induction l with
  | nil => exact Drains.done _ rfl
  | cons a t ih =>
    by_cases h : p a
    · rw [List.filter_cons_of_pos h]
      exact Drains.step _ a t _ (by simp [filterNext, h]) ih
    · rw [List.filter_cons_of_neg (by simpa using h)]
      have heq : filterNext p (a :: t) = filterNext p t := by
        simp [filterNext, h]
      exact drains_congr_head heq ih

/-- C6 (code bug): `FilterConsumer::consume` forwards an item to the
base consumer iff the predicate holds, and the filter state emits at
most the base's reported length of items — but `FilterState::len`
forwards the base's `ParallelLen` unchanged instead of downgrading it
to a sparse upper bound: on the exact base slice `[1, 2]` with an
evenness predicate, the reported length keeps `sparse = false` and
`maximal_len = 2` although only the single item `2` is produced,
violating the `ParallelIteratorState` safety contract that a
non-sparse `maximal_len` is precise. -/
theorem filter_len_not_sparse_bug :
    (∀ (α : Type) (p : α → Bool) (l : List α),
      Drains (filterNext p) l (l.filter p) ∧
      (l.filter p).length ≤ ((filterSliceOps p).len l).maximal_len) ∧
    ((filterSliceOps (fun x => x % 2 == 0)).len [1, 2]).sparse = false ∧
    ((filterSliceOps (fun x => x % 2 == 0)).len [1, 2]).maximal_len = 2 ∧
    (filterSliceOps (fun x => x % 2 == 0)).len [1, 2]
      = (sliceStateOps Nat).len [1, 2] ∧
    Drains (filterSliceOps (fun x => x % 2 == 0)).next [1, 2] [2] ∧
    FilterConsumer.consume (fun x => x % 2 == 0)
      (fun (s : List Nat) a => s ++ [a]) [] 2 = [2] ∧
    FilterConsumer.consume (fun x => x % 2 == 0)
      (fun (s : List Nat) a => s ++ [a]) [] 1 = [] := by
  refine ⟨?_, rfl, rfl, rfl, ?_, rfl, rfl⟩
  · intro α p l
    exact ⟨drains_filter p l, List.length_filter_le p l⟩
  · exact Drains.step _ 2 [] [] rfl (Drains.done _ rfl)

theorem windowsSeq_length {α : Type} (n : Nat) (l : List α) :
    (windowsSeq n l).length = l.length + 1 - n := by
  simp [windowsSeq]

theorem windows_concat {α : Type} (n k : Nat) (l : List α) (hn : 1 ≤ n)
    (hk : k + (n - 1) ≤ l.length) :
    windowsSeq n (l.take (k + (n - 1))) ++ windowsSeq n (l.drop k) =
      windowsSeq n l := by
  unfold windowsSeq
  rw [List.length_take, Nat.min_eq_left hk, List.length_drop]
  have h1 : k + (n - 1) + 1 - n = k := by omega
  have h2 : l.length - k + 1 - n = l.length + 1 - n - k := by omega
  have hsplit : l.length + 1 - n = k + (l.length + 1 - n - k) := by omega
  rw [h1, h2]
  conv_rhs => rw [hsplit]
  rw [List.range_add, List.map_append]
  congr 1
  · refine List.map_congr_left ?_
    intro i hi
    rw [List.mem_range] at hi
    rw [List.drop_take, List.take_take, Nat.min_eq_left (by omega)]
  · rw [List.map_map]
    refine List.map_congr_left ?_
    intro j _
    simp only [Function.comp_apply]
    rw [List.drop_drop]

/-- C7 (amended): for every window size `n ≥ 1`, `par_windows(n)` has
length `len - n + 1` saturated at zero — that is, `len + 1 - n` in
truncated arithmetic, which equals the spec's `len - n + 1` whenever
`len ≥ n - 1` but is `0` (not negative) on shorter slices — and
splitting the producer at any in-range `k` (with `k + n - 1 ≤ len`)
yields a left producer over `[0, k + n - 1)` and a right producer over
`[k, len)`, whose window sequences concatenate to the unsplit window
sequence. -/
theorem windows_len_split {α : Type} (l : List α) (n : Nat) (hn : 1 ≤ n) :
    WindowsIter.len { window_size := n, slice := l } = some (l.length + 1 - n) ∧
    (windowsSeq n l).length = l.length + 1 - n ∧
    (n ≤ l.length → l.length + 1 - n = l.length - n + 1) ∧
    ∀ k, k + (n - 1) ≤ l.length →
      SliceWindowsProducer.split_at { window_size := n, slice := l } k =
        some ({ window_size := n, slice := l.take (k + (n - 1)) },
              { window_size := n, slice := l.drop k }) ∧
      windowsSeq n (l.take (k + (n - 1))) ++ windowsSeq n (l.drop k) =
        windowsSeq n l := by
  refine ⟨?_, windowsSeq_length n l, fun h => by omega, ?_⟩
  · show (if 1 ≤ n then some (l.length - (n - 1)) else none) = some (l.length + 1 - n)
    rw [if_pos hn]
    exact congrArg some (by omega)
  · intro k hk
    refine ⟨?_, windows_concat n k l hn hk⟩
    rw [SliceWindowsProducer.split_at]
    exact if_pos hk

/-- C7 counterexample: on the empty slice with window size 2 the code
reports 0 windows, while the claim's formula `len - n + 1` evaluates to
`-1 ≠ 0`. -/
theorem windows_len_formula_cex :
    WindowsIter.len { window_size := 2, slice := ([] : List Nat) } = some 0 ∧
    ((([] : List Nat).length : ℤ) - 2 + 1 ≠ (0 : ℤ)) := by
  exact ⟨rfl, by decide⟩

/-- Witness for the amended C7 on `[10, 20, 30]` with window size 2:
length 2 windows, split at 1. -/
theorem windows_len_split_witness :
    (WindowsIter.len { window_size := 2, slice := [10, 20, 30] } = some 2 ∧
      (windowsSeq 2 [10, 20, 30]).length = 2 ∧
      (2 ≤ [10, 20, 30].length → [10, 20, 30].length + 1 - 2 = [10, 20, 30].length - 2 + 1) ∧
      ∀ k, k + (2 - 1) ≤ [10, 20, 30].length →
        SliceWindowsProducer.split_at { window_size := 2, slice := [10, 20, 30] } k =
          some ({ window_size := 2, slice := [10, 20, 30].take (k + (2 - 1)) },
                { window_size := 2, slice := [10, 20, 30].drop k }) ∧
        windowsSeq 2 ([10, 20, 30].take (k + (2 - 1))) ++ windowsSeq 2 ([10, 20, 30].drop k) =
          windowsSeq 2 [10, 20, 30]) ∧
    windowsSeq 2 ([10, 20, 30].take 2) ++ windowsSeq 2 ([10, 20, 30].drop 1) =
      windowsSeq 2 [10, 20, 30] :=
  ⟨windows_len_split [10, 20, 30] 2 (by decide),
   ((windows_len_split [10, 20, 30] 2 (by decide)).2.2.2 1 (by decide)).2⟩

theorem chunksSeq_nil {α : Type} (n : Nat) : chunksSeq n ([] : List α) = [] := by
  rw [chunksSeq]

theorem chunksSeq_cons {α : Type} {n : Nat} (hn : n ≠ 0) (a : α) (t : List α) :
    chunksSeq n (a :: t) = (a :: t).take n :: chunksSeq n ((a :: t).drop n) := by
  rw [chunksSeq, dif_neg hn]

theorem chunksSeq_length_fuel {α : Type} {n : Nat} (hn : 0 < n) :
    ∀ (fuel : Nat) (l : List α), l.length ≤ fuel →
      (chunksSeq n l).length = (l.length + (n - 1)) / n := by
  intro fuel
  induction fuel with
  | zero =>
    intro l hl
    have hl0 : l = [] := List.eq_nil_of_length_eq_zero (by omega)
    subst hl0
    rw [chunksSeq_nil]
    simp [Nat.div_eq_of_lt (show n - 1 < n by omega)]
  | succ fuel ih =>
    intro l hl
    cases l with
    | nil =>
      rw [chunksSeq_nil]
      simp [Nat.div_eq_of_lt (show n - 1 < n by omega)]
    | cons a t =>
      have hlf : ((a :: t).drop n).length ≤ fuel := by
        simp only [List.length_drop, List.length_cons] at hl ⊢
        omega
      rw [chunksSeq_cons (show n ≠ 0 by omega) a t]
      simp only [List.length_cons]
      rw [ih _ hlf]
      simp only [List.length_drop, List.length_cons]
      rcases le_or_lt n (t.length + 1) with hc | hc
      · rw [show t.length + 1 - n + (n - 1) = t.length from by omega,
          show t.length + 1 + (n - 1) = t.length + n from by omega,
          Nat.add_div_right _ hn]
      · rw [show t.length + 1 - n + (n - 1) = n - 1 from by omega,
          Nat.div_eq_of_lt (show n - 1 < n by omega),
          @Nat.div_eq_of_lt_le 1 n (t.length + 1 + (n - 1)) (by omega) (by omega)]

theorem chunksSeq_length {α : Type} {n : Nat} (hn : 0 < n) (l : List α) :
    (chunksSeq n l).length = (l.length + (n - 1)) / n :=
  chunksSeq_length_fuel hn l.length l le_rfl

theorem chunksSeq_take {α : Type} {n : Nat} (hn : 0 < n) :
    ∀ (k : Nat) (l : List α),
      chunksSeq n (l.take (k * n)) = (chunksSeq n l).take k := by
  intro k
  induction k with
  | zero =>
    intro l
    simp [chunksSeq_nil]
  | succ k ih =>
    intro l
    cases l with
    | nil => simp [chunksSeq_nil]
    | cons a t =>
      have hpos : 0 < (k + 1) * n := Nat.mul_pos (Nat.succ_pos k) hn
      have hm : (k + 1) * n = ((k + 1) * n - 1) + 1 := by omega
      have hkn : (k + 1) * n - n = k * n := by
        rw [Nat.succ_mul]
        omega
      have hle : n ≤ (k + 1) * n := Nat.le_mul_of_pos_left n (Nat.succ_pos k)
      rw [chunksSeq_cons (by omega) a t, List.take_succ_cons]
      have htake : (a :: t).take ((k + 1) * n) =
          a :: t.take ((k + 1) * n - 1) := by
        conv_lhs => rw [hm]
        rw [List.take_succ_cons]
      rw [htake, chunksSeq_cons (by omega)]
      rw [← List.take_succ_cons, ← hm]
      congr 1
      · rw [List.take_take, Nat.min_eq_left hle]
      · rw [List.drop_take, hkn]
        exact ih ((a :: t).drop n)

theorem chunksSeq_drop {α : Type} {n : Nat} (hn : 0 < n) :
    ∀ (k : Nat) (l : List α),
      chunksSeq n (l.drop (k * n)) = (chunksSeq n l).drop k := by
  intro k
  induction k with
  | zero =>
    intro l
    simp
  | succ k ih =>
    intro l
    cases l with
    | nil => simp [chunksSeq_nil]
    | cons a t =>
      have hstep : (a :: t).drop ((k + 1) * n) = ((a :: t).drop n).drop (k * n) := by
        rw [List.drop_drop]
        refine congrArg (fun m => (a :: t).drop m) ?_
        rw [Nat.succ_mul]
        omega
      rw [hstep, ih ((a :: t).drop n), chunksSeq_cons (by omega) a t,
        List.drop_succ_cons]

/-- C8: for every chunk size `n ≥ 1`, `par_chunks(n)` and
`par_chunks_mut(n)` report length `⌈len/n⌉` (which is the number of
chunks the sequential chunk iterator yields, characterized as the least
`m` with `len ≤ m·n`), and splitting the chunks producer at chunk
boundary `k` (in range: `k·n ≤ len`) splits the underlying slice at
element index `k·n`, the left side yielding the first `k` chunks and
the right side the rest. -/
theorem chunks_len_split {α : Type} (l : List α) (n k : Nat) (hn : 0 < n) :
    ChunksIter.len { chunk_size := n, slice := l } = some (l.length ⌈/⌉ n) ∧
    ChunksMutIter.len { chunk_size := n, slice := l } = some (l.length ⌈/⌉ n) ∧
    (chunksSeq n l).length = l.length ⌈/⌉ n ∧
    (∀ m : Nat, l.length ⌈/⌉ n ≤ m ↔ l.length ≤ m * n) ∧
    (k * n ≤ l.length →
      SliceChunksProducer.split_at { chunk_size := n, slice := l } k =
        some ({ chunk_size := n, slice := l.take (k * n) },
              { chunk_size := n, slice := l.drop (k * n) }) ∧
      SliceChunksMutProducer.split_at { chunk_size := n, slice := l } k =
        some ({ chunk_size := n, slice := l.take (k * n) },
              { chunk_size := n, slice := l.drop (k * n) }) ∧
      chunksSeq n (l.take (k * n)) = (chunksSeq n l).take k ∧
      chunksSeq n (l.drop (k * n)) = (chunksSeq n l).drop k) := by
  have hceil : l.length ⌈/⌉ n = (l.length + (n - 1)) / n := by
    rw [Nat.ceilDiv_eq_add_pred_div]
    refine congrArg (fun m => m / n) ?_
    omega
  refine ⟨?_, ?_, ?_, ?_, ?_⟩
  · show (if n = 0 then none else some ((l.length + (n - 1)) / n)) =
      some (l.length ⌈/⌉ n)
    rw [if_neg (by omega), hceil]
  · show (if n = 0 then none else some ((l.length + (n - 1)) / n)) =
      some (l.length ⌈/⌉ n)
    rw [if_neg (by omega), hceil]
  · rw [chunksSeq_length hn l, hceil]
  · intro m
    rw [hceil, Nat.div_le_iff_le_mul_add_pred hn]
    constructor
    · intro h
      have := Nat.mul_comm n m
      omega
    · intro h
      have := Nat.mul_comm n m
      omega
  · intro hk
    refine ⟨?_, ?_, chunksSeq_take hn k l, chunksSeq_drop hn k l⟩
    · show (if k * n ≤ l.length then _ else none) = _
      rw [if_pos hk]
    · show (if k * n ≤ l.length then _ else none) = _
      rw [if_pos hk]

/-- Witness for C8 on the slice `[1, 2, 3, 4, 5]` with chunk size 2 and
split boundary 1: three chunks reported, split at element index 2. -/
theorem chunks_len_split_witness :
    ChunksIter.len { chunk_size := 2, slice := [1, 2, 3, 4, 5] } =
      some ([1, 2, 3, 4, 5].length ⌈/⌉ 2) ∧
    (chunksSeq 2 [1, 2, 3, 4, 5]).length = [1, 2, 3, 4, 5].length ⌈/⌉ 2 ∧
    (SliceChunksProducer.split_at { chunk_size := 2, slice := [1, 2, 3, 4, 5] } 1 =
      some ({ chunk_size := 2, slice := [1, 2, 3, 4, 5].take 2 },
            { chunk_size := 2, slice := [1, 2, 3, 4, 5].drop 2 }) ∧
      chunksSeq 2 ([1, 2, 3, 4, 5].take 2) = (chunksSeq 2 [1, 2, 3, 4, 5]).take 1 ∧
      chunksSeq 2 ([1, 2, 3, 4, 5].drop 2) = (chunksSeq 2 [1, 2, 3, 4, 5]).drop 1) := by
  have h := chunks_len_split [1, 2, 3, 4, 5] 2 1 (by decide)
  have hs := h.2.2.2.2 (by decide)
  exact ⟨h.1, h.2.2.1, hs.1, hs.2.2.1, hs.2.2.2⟩

theorem produceN_indexedFrom {α : Type} :
    ∀ (l : List α) (off : Nat),
      produceN l.length { base := l, offset := off } = some (indexedFrom off l) := by
  intro l
  induction l with
  | nil => intro off; rfl
  | cons a t ih =>
    intro off
    show produceN (t.length + 1) { base := a :: t, offset := off } = _
    rw [produceN]
    show (produceN t.length { base := t, offset := off + 1 }).map
      (fun rest => (off, a) :: rest) = _
    rw [ih (off + 1)]
    rfl

theorem indexedFrom_eq_zip {α : Type} :
    ∀ (l : List α) (off : Nat),
      indexedFrom off l = ((List.range l.length).map (fun i => off + i)).zip l := by
  intro l
  induction l with
  | nil => intro off; rfl
  | cons a t ih =>
    intro off
    rw [indexedFrom, ih (off + 1)]
    simp only [List.length_cons, List.range_succ_eq_map, List.map_cons, List.map_map,
      Nat.add_zero, List.zip_cons_cons]
    refine congrArg (fun (z : List Nat) => (off, a) :: z.zip t) ?_
    refine List.map_congr_left ?_
    intro i _
    simp only [Function.comp_apply]
    omega

/-- C9: `enumerate(P)` over an indexed producer of length `n` produces
exactly the pairs `(0, P[0]), …, (n-1, P[n-1])`: the initial producer
carries offset 0; `split_at(k)` keeps the left producer's offset and
gives the right producer `offset + k`; `produce` returns the current
offset paired with the base item and then increments the offset. -/
theorem enumerate_produces_pairs :
    (∀ (α : Type) (e : EnumerateProducer α) (k : Nat),
      e.split_at k =
        ({ base := e.base.take k, offset := e.offset },
         { base := e.base.drop k, offset := e.offset + k })) ∧
    (∀ (α : Type) (e : EnumerateProducer α) (a : α) (t : List α),
      e.base = a :: t →
      e.produce = some ((e.offset, a), { base := t, offset := e.offset + 1 })) ∧
    (∀ (α : Type) (l : List α),
      produceN l.length (Enumerate.into_producer l) =
        some ((List.range l.length).zip l)) := by
  refine ⟨fun α e k => rfl, ?_, ?_⟩
  · intro α e a t hb
    rw [EnumerateProducer.produce, hb]
  · intro α l
    rw [Enumerate.into_producer, produceN_indexedFrom l 0, indexedFrom_eq_zip l 0]
    refine congrArg (fun (z : List Nat) => some (z.zip l)) ?_
    simp

/-- Witness for C9 on the three-element base `[7, 8, 9]`: split at 2
and a produce call at offset 5, and the full enumeration yielding
`(0, 7), (1, 8), (2, 9)`. -/
theorem enumerate_produces_pairs_witness :
    ({ base := [7, 8, 9], offset := 5 } : EnumerateProducer Nat).split_at 2 =
      ({ base := [7, 8], offset := 5 }, { base := [9], offset := 7 }) ∧
    ({ base := [7, 8, 9], offset := 5 } : EnumerateProducer Nat).produce =
      some ((5, 7), { base := [8, 9], offset := 6 }) ∧
    produceN 3 (Enumerate.into_producer [7, 8, 9]) =
      some [(0, 7), (1, 8), (2, 9)] :=
  ⟨enumerate_produces_pairs.1 Nat { base := [7, 8, 9], offset := 5 } 2,
   enumerate_produces_pairs.2.1 Nat { base := [7, 8, 9], offset := 5 } 7 [8, 9] rfl,
   enumerate_produces_pairs.2.2 Nat [7, 8, 9]⟩

/-- C1: the `zip_eq` entry point panics if and only if the two indexed
iterators have different lengths; when the lengths agree, the `ZipEq`
it builds is a plain wrapper around `zip(a, b)`, yielding exactly the
same pairs, whose number is `min(len(a), len(b))` (= the common
length). -/
theorem zip_eq_panics_iff :
    (∀ (α β : Type) (a : List α) (b : List β),
      (zip_eq a b = none ↔ a.length ≠ b.length)) ∧
    (∀ (α β : Type) (a : List α) (b : List β) (z : ZipEq α β),
      zip_eq a b = some z →
      z = zip_eq.new a b ∧
      z.items = (zip.new a b).items ∧
      z.len = (zip.new a b).len ∧
      z.items.length = min a.length b.length ∧
      z.len = a.length) ∧
    (∀ (α β : Type) (a : List α) (b : List β),
      ((zip.new a b).items).length = min a.length b.length) := by
  refine ⟨?_, ?_, ?_⟩
  · intro α β a b
    rw [zip_eq]
    by_cases h : a.length = b.length
    · simp [h]
    · simp [h]
  · intro α β a b z hz
    rw [zip_eq] at hz
    by_cases h : a.length = b.length
    · rw [if_pos h] at hz
      have hzz : z = zip_eq.new a b := (Option.some_inj.mp hz).symm
      subst hzz
      refine ⟨rfl, rfl, rfl, ?_, ?_⟩
      · show (a.zip b).length = min a.length b.length
        exact List.length_zip a b
      · show min a.length b.length = a.length
        omega
    · rw [if_neg h] at hz
      cases hz
  · intro α β a b
    show (a.zip b).length = min a.length b.length
    exact List.length_zip a b

/-- Witness for C1: equal-length lists `[1, 2]`, `[3, 4]` zip without
panic into the pairs `(1, 3), (2, 4)`; unequal lengths `[1]`, `[3, 4]`
panic. -/
theorem zip_eq_panics_iff_witness :
    (zip_eq [1] [3, 4] = none ↔ ([1] : List Nat).length ≠ ([3, 4] : List Nat).length) ∧
    (zip_eq.new [1, 2] [3, 4] = zip_eq.new [1, 2] [3, 4] ∧
      (zip_eq.new [1, 2] [3, 4]).items = (zip.new [1, 2] [3, 4]).items ∧
      (zip_eq.new [1, 2] [3, 4]).len = (zip.new [1, 2] [3, 4]).len ∧
      (zip_eq.new [1, 2] [3, 4]).items.length =
        min ([1, 2] : List Nat).length ([3, 4] : List Nat).length ∧
      (zip_eq.new [1, 2] [3, 4]).len = ([1, 2] : List Nat).length) ∧
    ((zip.new [1, 2] [3, 4]).items).length =
      min ([1, 2] : List Nat).length ([3, 4] : List Nat).length :=
  ⟨zip_eq_panics_iff.1 Nat Nat [1] [3, 4],
   zip_eq_panics_iff.2.1 Nat Nat [1, 2] [3, 4] (zip_eq.new [1, 2] [3, 4]) rfl,
   zip_eq_panics_iff.2.2 Nat Nat [1, 2] [3, 4]⟩

end Rayon
